import Mathlib

/-!
# Verification of the kitchen-knightmare core against its specification

Shallow embedding of the core logic of the repository:

* `src/lib/shelfLife.ts` — ingredient canonicalization (alias table, shelf-life
  vocabulary, Levenshtein fuzzy matching), shelf-life lookup, expiration dates,
  `daysUntil`, `urgencyScore`;
* `src/lib/receiptParser.ts` — receipt line filtering, cleaning,
  quantity/unit inference, parsing and deduplication;
* `src/unnamed/part_003` — `rankExpiringIngredients`.

Modelling conventions, stated once here:

* Strings are processed as their character lists; character classes
  (`\d`, `\s`, `\w`, `a-z`) follow their ASCII meaning, and `toLowerCase`
  is modelled on ASCII letters (the receipts and tables in the source are
  ASCII).
* JavaScript `number` values that the code actually produces are exact:
  quantities and confidences are modelled as `ℚ`, timestamps in milliseconds
  and day counts as `ℤ`, edit distances as `ℕ`.  For the concrete fractions
  the code can produce (`d/maxLength` with `maxLength ≤ 14` on the branch
  that rounds, see `canonicalizeIngredient`) IEEE doubles, `toFixed(2)` and
  the `>= 0.55` test agree with exact rational arithmetic, so `round2` below
  is a faithful model of `Number(x.toFixed(2))`.
* `Record` objects are modelled as association lists in their literal
  (= insertion = iteration) order; prototype-chain lookups are not modelled.
* `new Date(s)` is modelled by `jsParseDate` for ISO `YYYY-MM-DD` inputs
  (UTC midnight, as in JavaScript); every other input is modelled as an
  invalid date.  An invalid date makes `toISOString` throw, modelled as
  `none`.  `d.setDate(d.getDate() + n)` under the UTC timezone adds exactly
  `n * 86400000` milliseconds (ECMAScript `MakeDay` is linear in its day
  argument), which is how `expirationDateForItem` is embedded.
* `Array.prototype.sort` with a consistent comparator is a stable sort, so
  it is modelled by `List.insertionSort`, which is stable; for a consistent
  comparator every stable sort produces the same list.
-/

/-! ## Character helpers (ASCII semantics of the regex character classes) -/

/-- ASCII lower-casing, the effect of `toLowerCase` on the ASCII inputs the
source works with. -/
def toLowerAscii (c : Char) : Char :=
  if 'A' ≤ c ∧ c ≤ 'Z' then Char.ofNat (c.toNat + 32) else c

/-- The class `[a-z]`. -/
def isAsciiLowerAlpha (c : Char) : Bool := decide ('a' ≤ c ∧ c ≤ 'z')

/-- The class `\d`. -/
def isDigitChar (c : Char) : Bool := decide ('0' ≤ c ∧ c ≤ '9')

/-- The class `\s` (ASCII whitespace). -/
def isWhitespaceChar (c : Char) : Bool :=
  c = ' ' ∨ c = '\t' ∨ c = '\n' ∨ c = '\r' ∨ c = '\x0b' ∨ c = '\x0c'

/-- The class `\w`, which the word boundary `\b` is defined from. -/
def isWordChar (c : Char) : Bool :=
  ('a' ≤ c ∧ c ≤ 'z') ∨ ('A' ≤ c ∧ c ≤ 'Z') ∨ ('0' ≤ c ∧ c ≤ '9') ∨ c = '_'

/-! ## shelfLife.ts: tables and `normalizeToken` -/

def DEFAULT_SHELF_LIFE_DAYS : Nat := 7

/-- `SHELF_LIFE_BY_INGREDIENT`, in the literal's (= iteration) order. -/
def SHELF_LIFE_BY_INGREDIENT : List (String × Nat) :=
  [("apple", 30), ("banana", 5), ("beef", 4), ("bread", 7), ("broccoli", 7),
   ("butter", 30), ("carrot", 21), ("cheese", 28), ("chicken", 2), ("cilantro", 4),
   ("cucumber", 7), ("egg", 21), ("fish", 2), ("garlic", 45), ("lettuce", 7),
   ("milk", 7), ("onion", 30), ("potato", 30), ("spinach", 5), ("tomato", 10),
   ("yogurt", 14)]

/-- `INGREDIENT_ALIASES`, in the literal's order. -/
def INGREDIENT_ALIASES : List (String × String) :=
  [("apples", "apple"), ("bananas", "banana"), ("eggs", "egg"), ("tomatoes", "tomato"),
   ("potatoes", "potato"), ("onions", "onion"), ("lettuces", "lettuce"), ("bnna", "banana"),
   ("orgbnna", "banana"), ("mlk", "milk"), ("chk", "chicken"), ("chkn", "chicken"),
   ("tom", "tomato"), ("yog", "yogurt")]

/-- `normalizeToken`: lower-case, then strip every character outside `a-z`
(`value.toLowerCase().replace(/[^a-z]/g, '')`). -/
def normalizeToken (s : String) : String :=
  ⟨(s.data.map toLowerAscii).filter isAsciiLowerAlpha⟩

/-! ## shelfLife.ts: `levenshteinDistance`

The source fills a `(|a|+1) × (|b|+1)` matrix:

* `matrix[row][0] = row`, `matrix[0][col] = col`;
* `matrix[row][col] = min(matrix[row-1][col] + 1, matrix[row][col-1] + 1,
  matrix[row-1][col-1] + cost)` with `cost = a[row-1] === b[col-1] ? 0 : 1`,

and returns `matrix[|a|][|b|]`.  `levenshteinDistance` below computes the
matrix row by row exactly as the nested loops do; `levD` is the recurrence
that defines the matrix entries (the classic dynamic-programming edit
distance with insert/delete/substitute each of cost 1), and
`levenshteinDistance_eq_levD` proves the loop computes it. -/

/-- `cost = a[row - 1] === b[col - 1] ? 0 : 1`. -/
def levCost (x y : Char) : Nat := if x = y then 0 else 1

/-- The inner loop over `col = 1 .. |b|`: walking along `b`, `pd` is
`matrix[row-1][col-1]`, `rest.headD 0` is `matrix[row-1][col]` and `left` is
the freshly computed `matrix[row][col-1]`. -/
def levRowAux (x : Char) : List Char → List Nat → Nat → List Nat
  | y :: ys, pd :: rest, left =>
      let v := min (rest.headD 0 + 1) (min (left + 1) (pd + levCost x y))
      v :: levRowAux x ys rest v
  | _, _, _ => []

/-- One iteration of the outer loop: from row `row-1` (`prev`) to row `row`;
`prev.headD 0 + 1 = row` is the `matrix[row][0] = row` initialisation. -/
def levRowStep (b : List Char) (prev : List Nat) (x : Char) : List Nat :=
  let first := prev.headD 0 + 1
  first :: levRowAux x b prev first

/-- `levenshteinDistance(a, b)`: row 0 is `[0, 1, …, |b|]`
(`matrix[0][col] = col`), then one `levRowStep` per character of `a`, and the
answer is the last entry of the last row (`matrix[|a|][|b|]`). -/
def levenshteinDistance (a b : List Char) : Nat :=
  (a.foldl (levRowStep b) (List.range (b.length + 1))).getLastD 0

/-- The defining recurrence of the Wagner–Fischer matrix — the classic
dynamic-programming string edit distance with insert, delete and substitute
each costing 1.  `levD ra b c` is the entry `matrix[r][c]` for the prefix of
`a` whose characters, in reverse, are `ra` (so `r = ra.length`); the base
rows/columns are `matrix[0][c] = c` and `matrix[r][0] = r`. -/
def levD : List Char → List Char → Nat → Nat
  | [], _, c => c
  | _ :: ra, _, 0 => ra.length + 1
  | x :: ra, b, c + 1 =>
      min (levD ra b (c + 1) + 1)
        (min (levD (x :: ra) b c + 1) (levD ra b c + levCost x (b.getD c ' ')))
  termination_by ra _ c => (ra.length, c)

/-- The spec's "edit distance (insert/delete/substitute each cost 1)" of two
strings: the full-string entry of the Wagner–Fischer matrix. -/
def editDistance (a b : List Char) : Nat := levD a.reverse b b.length

/-- `matrix[r][0] = r`. -/
theorem levD_zero (ra b : List Char) : levD ra b 0 = ra.length := by
  cases ra <;> simp [levD]

theorem getD_of_drop_eq_cons {b : List Char} {c : Nat} {y : Char} {ys : List Char}
    (h : b.drop c = y :: ys) : b.getD c ' ' = y := by
  induction b generalizing c with
  | nil => simp at h
  | cons z zs ih =>
    cases c with
    | zero => simp at h; simp [h.1]
    | succ c => simp only [List.drop_succ_cons] at h; simpa using ih h

/-- The inner loop turns (the suffix from column `c` of) row `ra` into (the
suffix from column `c+1` of) row `x :: ra`. -/
theorem levRowAux_spec (x : Char) (b : List Char) (ra : List Char) :
    ∀ (bs : List Char) (c : Nat), bs = b.drop c →
      levRowAux x bs ((List.range' c (b.length + 1 - c)).map (levD ra b))
          (levD (x :: ra) b c)
        = (List.range' (c + 1) (b.length - c)).map (levD (x :: ra) b) := by
  intro bs
  induction bs with
  | nil =>
    intro c h
    have hc : b.length ≤ c := List.drop_eq_nil_iff.mp h.symm
    have h2 : b.length - c = 0 := by omega
    simp [h2, levRowAux]
  | cons y ys ih =>
    intro c h
    have hc : c < b.length := by
      by_contra hge
      rw [List.drop_eq_nil_of_le (by omega)] at h
      simp at h
    have hy : b.getD c ' ' = y := getD_of_drop_eq_cons h.symm
    have hys : ys = b.drop (c + 1) := by
      have := congrArg (List.drop 1) h
      simpa [List.drop_drop, Nat.add_comm] using this
    have hlen1 : b.length + 1 - c = (b.length - c) + 1 := by omega
    have hlen2 : b.length - c = (b.length - (c + 1)) + 1 := by omega
    rw [hlen1, List.range'_succ, List.map_cons, levRowAux]
    have hhead : ((List.range' (c + 1) (b.length - c)).map (levD ra b)).headD 0
        = levD ra b (c + 1) := by
      rw [hlen2, List.range'_succ, List.map_cons]
      rfl
    rw [hhead]
    have hv : min (levD ra b (c + 1) + 1)
        (min (levD (x :: ra) b c + 1) (levD ra b c + levCost x y))
        = levD (x :: ra) b (c + 1) := by
      rw [levD, hy]
    have ih' := ih (c + 1) hys
    rw [Nat.succ_sub_succ] at ih'
    rw [hv, ih', hlen2, List.range'_succ, List.map_cons]

/-- One outer-loop iteration maps row `ra` to row `x :: ra`. -/
theorem levRowStep_spec (b : List Char) (ra : List Char) (x : Char) :
    levRowStep b ((List.range' 0 (b.length + 1)).map (levD ra b)) x
      = (List.range' 0 (b.length + 1)).map (levD (x :: ra) b) := by
  have haux := levRowAux_spec x b ra b 0 (by simp)
  simp only [Nat.sub_zero, Nat.zero_add] at haux
  have hhead : ((List.range' 0 (b.length + 1)).map (levD ra b)).headD 0 = levD ra b 0 := by
    rw [List.range'_succ, List.map_cons]; rfl
  have hxlen : levD (x :: ra) b 0 = ra.length + 1 := by
    rw [levD_zero]; rfl
  have hsplit : List.range' 0 (b.length + 1) = 0 :: List.range' 1 b.length := by
    rw [List.range'_succ]
  conv_rhs => rw [hsplit]
  rw [List.map_cons]
  show (((List.range' 0 (b.length + 1)).map (levD ra b)).headD 0 + 1)
      :: levRowAux x b ((List.range' 0 (b.length + 1)).map (levD ra b))
          (((List.range' 0 (b.length + 1)).map (levD ra b)).headD 0 + 1)
    = levD (x :: ra) b 0 :: (List.range' 1 b.length).map (levD (x :: ra) b)
  rw [hhead, levD_zero, ← hxlen, haux]

/-- The whole fold: after consuming `as`, the accumulator is the row of the
prefix processed so far. -/
theorem lev_foldl_spec (b : List Char) :
    ∀ (as ra : List Char),
      as.foldl (levRowStep b) ((List.range' 0 (b.length + 1)).map (levD ra b))
        = (List.range' 0 (b.length + 1)).map (levD (as.reverse ++ ra) b) := by
  intro as
  induction as with
  | nil => intro ra; simp
  | cons x as ih =>
    intro ra
    rw [List.foldl_cons, levRowStep_spec b ra x, ih (x :: ra)]
    simp

/-- The loops of the source compute the Wagner–Fischer recurrence: the
returned `matrix[|a|][|b|]` is the classic edit distance of `a` and `b`. -/
theorem levenshteinDistance_eq_levD (a b : List Char) :
    levenshteinDistance a b = editDistance a b := by
  unfold levenshteinDistance editDistance
  have hinit : List.range (b.length + 1) = (List.range' 0 (b.length + 1)).map (levD [] b) := by
    rw [List.range_eq_range']
    symm
    have h : ∀ c ∈ List.range' 0 (b.length + 1), levD [] b c = id c := by
      intro c _
      simp [levD]
    rw [List.map_congr_left h, List.map_id]
  rw [hinit, lev_foldl_spec b a [], List.append_nil]
  rw [List.range'_concat 0 b.length, List.map_append]
  simp

/-! ## shelfLife.ts: `canonicalizeIngredient` -/

/-- The result shape `{ canonicalName, confidence }`. -/
structure Canonicalization where
  canonicalName : String
  confidence : ℚ
deriving DecidableEq, Repr

/-- `Object.keys(SHELF_LIFE_BY_INGREDIENT)`. -/
def vocabKeys : List String := SHELF_LIFE_BY_INGREDIENT.map Prod.fst

/-- `distance < bestDistance`, where `bestDistance` starts as
`Number.POSITIVE_INFINITY` (modelled as `none`). -/
def distLtBest (d : Nat) : Option Nat → Bool
  | none => true
  | some best => d < best

/-- The body of the fuzzy-fallback loop: replace `(bestMatch, bestDistance)`
whenever `distance < bestDistance` (strict, so the first key attaining the
minimum is kept). -/
def bestStep (acc : String × Option Nat) (key : String) (distance : Nat) :
    String × Option Nat :=
  if distLtBest distance acc.2 then (key, some distance) else acc

/-- The `for (const key of Object.keys(...))` loop of the fuzzy fallback,
starting from `('unknown', Infinity)`. -/
def bestVocabFold (normalized : String) : String × Option Nat :=
  vocabKeys.foldl
    (fun acc key => bestStep acc key (levenshteinDistance normalized.data key.data))
    ("unknown", none)

/-- `Number(x.toFixed(2))` for the non-negative rationals this code rounds
(see the header: on this value range IEEE evaluation agrees with exact
rational rounding half away from zero, which for non-negative values is
`round = ⌊x + 1/2⌋`). -/
def round2 (q : ℚ) : ℚ := (round (q * 100) : ℚ) / 100

/-- `canonicalizeIngredient(rawName)` from `src/lib/shelfLife.ts`.

The vocabulary test `if (SHELF_LIFE_BY_INGREDIENT[normalized])` is a JS
truthiness test on the looked-up number, i.e. `lookup ≠ undefined ∧ lookup ≠ 0`,
embedded as `(lookup).getD 0 ≠ 0`; `maxLength === 0 ? 0 : ...` is kept as in
the source, and the fold's `bestDistance` is read back with `getD 0` (the
vocabulary is non-empty, so the fold always produced `some`, see
`bestVocabFold_eq_firstArgmin`). -/
def canonicalizeIngredient (rawName : String) : Canonicalization :=
  let normalized := normalizeToken rawName
  if normalized = "" then ⟨"unknown", 0⟩
  else
    match INGREDIENT_ALIASES.lookup normalized with
    | some aliasMatch => ⟨aliasMatch, 95/100⟩
    | none =>
      if (SHELF_LIFE_BY_INGREDIENT.lookup normalized).getD 0 ≠ 0 then ⟨normalized, 1⟩
      else
        let best := bestVocabFold normalized
        let bestMatch := best.1
        let bestDistance := best.2.getD 0
        let maxLength := max bestMatch.length normalized.length
        let similarity : ℚ := if maxLength = 0 then 0 else 1 - (bestDistance : ℚ) / maxLength
        if 55/100 ≤ similarity then ⟨bestMatch, round2 similarity⟩
        else ⟨normalized, 1/2⟩

/-- `getShelfLifeDays`: table lookup with the `?? DEFAULT_SHELF_LIFE_DAYS`
fallback. -/
def getShelfLifeDays (canonicalName : String) : Nat :=
  (SHELF_LIFE_BY_INGREDIENT.lookup canonicalName).getD DEFAULT_SHELF_LIFE_DAYS

/-! ### Specification-side description of the fuzzy fallback (claim C3)

The spec says: compute the edit distance to every vocabulary entry, pick the
minimum-distance entry with the first minimum winning ties in the fixed
vocabulary iteration order, set `similarity = 1 - distance /
max(len(input), len(match))`, and return that entry with confidence
`similarity` rounded to two decimals when `similarity ≥ 0.55`, otherwise the
normalized input itself with confidence `0.5`. -/

/-- The first pair of minimal second component: a pair is kept against every
strictly smaller pair later in the list, so ties go to the earlier entry. -/
def firstArgmin : List (String × Nat) → Option (String × Nat)
  | [] => none
  | p :: ps =>
    match firstArgmin ps with
    | none => some p
    | some q => if q.2 < p.2 then some q else some p

/-- Every vocabulary entry paired with its edit distance from `n`. -/
def vocabDistances (n : String) : List (String × Nat) :=
  vocabKeys.map fun k => (k, editDistance n.data k.data)

/-- The spec's fuzzy fallback, word for word (the vocabulary is non-empty, so
`firstArgmin` always yields an entry; the `none` branch is unreachable). -/
def specFuzzyResolve (n : String) : Canonicalization :=
  match firstArgmin (vocabDistances n) with
  | none => ⟨"unknown", 0⟩
  | some (k, d) =>
    let m := max k.length n.length
    let sim : ℚ := 1 - (d : ℚ) / m
    if 55/100 ≤ sim then ⟨k, round2 sim⟩ else ⟨n, 1/2⟩

theorem firstArgmin_mem {l : List (String × Nat)} {q : String × Nat}
    (h : firstArgmin l = some q) : q ∈ l := by
  induction l generalizing q with
  | nil => simp [firstArgmin] at h
  | cons p ps ih =>
    rw [firstArgmin] at h
    cases hps : firstArgmin ps with
    | none => rw [hps] at h; simp at h; simp [h]
    | some r =>
      rw [hps] at h
      by_cases hlt : r.2 < p.2
      · simp only [hlt, if_true] at h
        obtain rfl : r = q := by simpa using h
        exact List.mem_cons_of_mem p (ih hps)
      · simp only [hlt, if_false] at h
        obtain rfl : p = q := by simpa using h
        exact List.mem_cons_self p ps

theorem bestStep_some (k key : String) (d dist : Nat) :
    bestStep (k, some d) key dist = if dist < d then (key, some dist) else (k, some d) := by
  simp [bestStep, distLtBest]

theorem bestStep_none (k key : String) (dist : Nat) :
    bestStep (k, none) key dist = (key, some dist) := by
  simp [bestStep, distLtBest]

/-- The running-minimum fold, started from a definite pair, computes the
first argmin of the pair followed by the rest of the list. -/
theorem foldl_minpair_spec (ps : List (String × Nat)) :
    ∀ (k : String) (d : Nat),
      ps.foldl (fun acc p => bestStep acc p.1 p.2) (k, some d)
        = match firstArgmin ps with
          | none => (k, some d)
          | some q => if q.2 < d then (q.1, some q.2) else (k, some d) := by
  induction ps with
  | nil => intro k d; simp [firstArgmin]
  | cons p ps ih =>
    intro k d
    simp only [List.foldl_cons]
    rw [bestStep_some]
    by_cases hp : p.2 < d
    · rw [if_pos hp, ih p.1 p.2, firstArgmin]
      cases hps : firstArgmin ps with
      | none => simp [hp]
      | some q =>
        by_cases hq : q.2 < p.2 <;> by_cases hq' : q.2 < d <;>
          simp [hq, hq', hp] <;> omega
    · rw [if_neg hp, ih k d, firstArgmin]
      cases hps : firstArgmin ps with
      | none => simp [hp]
      | some q =>
        by_cases hq : q.2 < p.2 <;> by_cases hq' : q.2 < d <;>
          simp [hq, hq', hp] <;> omega

/-- The source's best-match loop computes exactly the spec's
first-minimum-distance vocabulary entry. -/
theorem bestVocabFold_eq_firstArgmin (n : String) :
    ∃ q : String × Nat, firstArgmin (vocabDistances n) = some q ∧
      bestVocabFold n = (q.1, some q.2) := by
  have hfold : bestVocabFold n
      = (vocabDistances n).foldl (fun acc p => bestStep acc p.1 p.2) ("unknown", none) := by
    unfold bestVocabFold vocabDistances
    rw [List.foldl_map]
    congr 1
    funext acc key
    simp [levenshteinDistance_eq_levD]
  rcases hcons : vocabDistances n with _ | ⟨p, ps⟩
  · exact absurd hcons (by simp [vocabDistances, vocabKeys, SHELF_LIFE_BY_INGREDIENT])
  rw [hcons] at hfold
  simp only [List.foldl_cons] at hfold
  rw [bestStep_none] at hfold
  rw [foldl_minpair_spec ps p.1 p.2] at hfold
  rw [firstArgmin]
  cases hps : firstArgmin ps with
  | none =>
    rw [hps] at hfold
    exact ⟨p, rfl, hfold⟩
  | some q =>
    rw [hps] at hfold
    by_cases hq : q.2 < p.2
    · simp only [hq, if_true] at hfold ⊢
      exact ⟨q, rfl, hfold⟩
    · simp only [hq, if_false] at hfold ⊢
      exact ⟨p, rfl, hfold⟩

theorem mem_of_lookup_eq_some {β : Type} {a : String} {b : β} :
    ∀ {l : List (String × β)}, List.lookup a l = some b → (a, b) ∈ l := by
  intro l
  induction l with
  | nil => intro h; simp [List.lookup] at h
  | cons p ps ih =>
    intro h
    rw [List.lookup_cons] at h
    by_cases he : a == p.1
    · simp [he] at h
      have ha : a = p.1 := eq_of_beq he
      have : (a, b) = p := by rw [ha, ← h]
      exact this ▸ List.mem_cons_self p ps
    · simp [he] at h
      exact List.mem_cons_of_mem p (ih h)

/-- The fuzzy fallback of `canonicalizeIngredient` behaves exactly as the
spec describes it (claim C3): on the path where the normalized input is
non-empty, no alias and no vocabulary entry, the result is the spec's
first-minimum-edit-distance resolution. -/
theorem canonicalizeIngredient_fuzzy_eq_spec (s : String)
    (h1 : normalizeToken s ≠ "")
    (h2 : INGREDIENT_ALIASES.lookup (normalizeToken s) = none)
    (h3 : SHELF_LIFE_BY_INGREDIENT.lookup (normalizeToken s) = none) :
    canonicalizeIngredient s = specFuzzyResolve (normalizeToken s) := by
  obtain ⟨q, hq1, hq2⟩ := bestVocabFold_eq_firstArgmin (normalizeToken s)
  obtain ⟨k, d⟩ := q
  have hlen : (normalizeToken s).length ≠ 0 := by
    intro hl
    exact h1 (String.ext (List.length_eq_zero.mp hl))
  have hmax : ¬ (max k.length (normalizeToken s).length = 0) := by
    intro hm
    rw [Nat.max_eq_zero_iff] at hm
    exact hlen hm.2
  unfold canonicalizeIngredient specFuzzyResolve
  simp only [if_neg h1, h2, h3, hq1, hq2, Option.getD_none, Option.getD_some]
  simp only [ne_eq, not_true_eq_false, if_neg hmax, ite_false]

/-! ## receiptParser.ts

The reject patterns, `cleanLine`, `inferUnit` and `inferQuantity` are regex
based; each regex is embedded by a recursive scanner with the exact
match/replace semantics of the pattern (leftmost match, greedy with the
backtracking the pattern allows, global replacement resuming right after
each match). -/

/-- `[\d.,]`, the continuation class of the numeric tokens. -/
def isDigitDotComma (c : Char) : Bool := isDigitChar c || c = '.' || c = ','

/-- `\b` before a position: start of string, or previous character not `\w`. -/
def boundaryBefore : Option Char → Bool
  | none => true
  | some c => !isWordChar c

/-- `\b` after a token ending in `lastc`: word-char status changes (or the
string ends on a word character). -/
def boundaryAfterLast (lastc : Char) : List Char → Bool
  | [] => isWordChar lastc
  | c :: _ => isWordChar lastc != isWordChar c

/-- Suffix taken by `dropWhile` is no longer than the list (used to justify
the fuel bounds of the scanners below). -/
theorem dropWhile_length_le (p : Char → Bool) (l : List Char) :
    (List.dropWhile p l).length ≤ l.length :=
  (@List.dropWhile_sublist _ l p).length_le

/-! ### Line splitting and trimming (`split(/\r?\n/)`, `trim()`) -/

def splitOnNewlines : List Char → List Char → List (List Char)
  | [], acc => [acc.reverse]
  | '\n' :: rest, acc => acc.reverse :: splitOnNewlines rest []
  | c :: rest, acc => splitOnNewlines rest (c :: acc)

/-- Splitting on `\n` and then removing one trailing `\r` is exactly
`split(/\r?\n/)`. -/
def dropTrailingCR (l : List Char) : List Char :=
  if l.getLast? = some '\r' then l.dropLast else l

def trimChars (l : List Char) : List Char :=
  ((l.dropWhile isWhitespaceChar).reverse.dropWhile isWhitespaceChar).reverse

/-- `rawText.split(/\r?\n/).map(line => line.trim()).filter(Boolean)`. -/
def splitReceiptLines (rawText : String) : List (List Char) :=
  (((splitOnNewlines rawText.data []).map dropTrailingCR).map trimChars).filter
    (fun l => !l.isEmpty)

/-! ### The reject filter `IGNORED_LINE_PATTERNS` -/

def beginsWith : List Char → List Char → Bool
  | [], _ => true
  | _ :: _, [] => false
  | p :: ps, c :: cs => p = c && beginsWith ps cs

def containsSeq (pat : List Char) : List Char → Bool
  | [] => beginsWith pat []
  | c :: rest => beginsWith pat (c :: rest) || containsSeq pat rest

/-- The fourteen case-insensitive word patterns (`/subtotal/i` … `/time/i`),
each a substring test. -/
def IGNORED_WORDS : List String :=
  ["subtotal", "total", "tax", "change", "cash", "visa", "mastercard",
   "debit", "credit", "thank", "store", "receipt", "date", "time"]

def sepThenDigit : List Char → Bool
  | a :: b :: _ => (a = '/' || a = ':') && isDigitChar b
  | _ => false

/-- `/^\d{1,2}[/:]\d{1,2}/.test`: one or two digits, a `/` or `:`, then at
least one digit, anchored at the start. -/
def isTimeLikeStart : List Char → Bool
  | [] => false
  | c :: rest =>
    isDigitChar c &&
      (sepThenDigit rest ||
        match rest with
        | d :: rest2 => isDigitChar d && sepThenDigit rest2
        | [] => false)

/-- The class `[\d\s.,$-]`. -/
def isNumericJunkChar (c : Char) : Bool :=
  isDigitChar c || isWhitespaceChar c || c = '.' || c = ',' || c = '$' || c = '-'

/-- `IGNORED_LINE_PATTERNS.some(p => p.test(line))`. -/
def isIgnoredLine (l : List Char) : Bool :=
  IGNORED_WORDS.any (fun w => containsSeq w.data (l.map toLowerAscii))
    || isTimeLikeStart l
    || (!l.isEmpty && l.all isNumericJunkChar)

/-! ### `cleanLine` -/

/-- `.replace(/\s+/g, ' ')`: each maximal whitespace run becomes one space.
Every step consumes at least one character, so `fuel = l.length` always
suffices (see `dropWhile_length_le`); the zero-fuel clause is unreachable and
exists only to make the recursion structural. -/
def collapseWhitespaceF : Nat → List Char → List Char
  | _, [] => []
  | 0, _ :: _ => []
  | fuel + 1, c :: rest =>
    if isWhitespaceChar c then ' ' :: collapseWhitespaceF fuel (rest.dropWhile isWhitespaceChar)
    else c :: collapseWhitespaceF fuel rest

def collapseWhitespace (l : List Char) : List Char := collapseWhitespaceF l.length l

/-- `.replace(/\d+[xX]\s*/g, '')`: at a digit, the maximal digit run must be
followed by `x`/`X` (backtracking `\d+` cannot help: any shorter digit prefix
is followed by a digit); on a match, the run, the `x` and the following
whitespace are consumed. -/
def stripMultiplierTokensF : Nat → List Char → List Char
  | _, [] => []
  | 0, _ :: _ => []
  | fuel + 1, c :: rest =>
    if isDigitChar c then
      match rest.dropWhile isDigitChar with
      | x :: rest2 =>
        if x = 'x' || x = 'X' then stripMultiplierTokensF fuel (rest2.dropWhile isWhitespaceChar)
        else c :: stripMultiplierTokensF fuel rest
      | [] => c :: stripMultiplierTokensF fuel rest
    else c :: stripMultiplierTokensF fuel rest

def stripMultiplierTokens (l : List Char) : List Char := stripMultiplierTokensF l.length l

/-- `.replace(/\$\s*\d+[\d.,]*/g, '')`: a `$`, optional whitespace, then a
maximal `[\d.,]` run starting with a digit (`\d+` then `[\d.,]*`, both
greedy, no trailing constraint). -/
def stripPriceTokensF : Nat → List Char → List Char
  | _, [] => []
  | 0, _ :: _ => []
  | fuel + 1, c :: rest =>
    if c = '$' then
      match rest.dropWhile isWhitespaceChar with
      | d :: tail =>
        if isDigitChar d then stripPriceTokensF fuel (tail.dropWhile isDigitDotComma)
        else c :: stripPriceTokensF fuel rest
      | [] => c :: stripPriceTokensF fuel rest
    else c :: stripPriceTokensF fuel rest

def stripPriceTokens (l : List Char) : List Char := stripPriceTokensF l.length l

/-- The backtracking of `\b\d+[\d.,]*\b` at a fixed start: the reachable
token lengths are `1 .. R` (`R` the maximal `[\d.,]` run with a leading
digit), and greediness selects the longest whose end sits on a `\b`. -/
def bestTokenLen (l : List Char) : Nat → Option Nat
  | 0 => none
  | k + 1 =>
    match (l.take (k + 1)).getLast? with
    | some lc =>
      if boundaryAfterLast lc (l.drop (k + 1)) then some (k + 1) else bestTokenLen l k
    | none => bestTokenLen l k

theorem bestTokenLen_pos {l : List Char} :
    ∀ {n k : Nat}, bestTokenLen l n = some k → 1 ≤ k := by
  intro n
  induction n with
  | zero => intro k h; simp [bestTokenLen] at h
  | succ n ih =>
    intro k h
    rw [bestTokenLen] at h
    cases hl : (l.take (n + 1)).getLast? with
    | none => rw [hl] at h; exact ih h
    | some lc =>
      rw [hl] at h
      by_cases hb : boundaryAfterLast lc (l.drop (n + 1))
      · simp [hb] at h; omega
      · simp [hb] at h; exact ih h

/-- `.replace(/\b\d+[\d.,]*\b/g, '')`: scan with the previous character as
`\b` context; at a digit preceded by a boundary, remove the longest
`[\d.,]`-token (leading digit) whose end is also a boundary, and resume right
after it; otherwise keep the character. -/
def stripBareNumberTokensF : Nat → Option Char → List Char → List Char
  | _, _, [] => []
  | 0, _, _ :: _ => []
  | fuel + 1, prev, c :: rest =>
    if boundaryBefore prev && isDigitChar c then
      match bestTokenLen (c :: rest) ((c :: rest).takeWhile isDigitDotComma).length with
      | some k => stripBareNumberTokensF fuel ((c :: rest).take k).getLast? ((c :: rest).drop k)
      | none => c :: stripBareNumberTokensF fuel (some c) rest
    else c :: stripBareNumberTokensF fuel (some c) rest

def stripBareNumberTokens (prev : Option Char) (l : List Char) : List Char :=
  stripBareNumberTokensF l.length prev l

/-- `cleanLine`: collapse whitespace, strip `N x` multipliers, `$` prices and
bare numeric tokens, then trim. -/
def cleanLine (l : List Char) : List Char :=
  trimChars (stripBareNumberTokens none (stripPriceTokens (stripMultiplierTokens
    (collapseWhitespace l))))

/-! ### `inferUnit` and `inferQuantity` -/

/-- `\b` after a (word-character) token: next character absent or not `\w`. -/
def wordBoundaryAfterSeq : List Char → Bool
  | [] => true
  | c :: _ => !isWordChar c

def hasWordTokenAux (tok : List Char) : Option Char → List Char → Bool
  | _, [] => false
  | prev, c :: rest =>
    (boundaryBefore prev && beginsWith tok (c :: rest)
        && wordBoundaryAfterSeq ((c :: rest).drop tok.length))
      || hasWordTokenAux tok (some c) rest

/-- `/\b(t1|t2|…)\b/i.test(line)`. -/
def hasAnyWordToken (toks : List String) (l : List Char) : Bool :=
  toks.any fun t => hasWordTokenAux t.data none (l.map toLowerAscii)

/-- `inferUnit`: the three word-boundary unit tests in their fixed priority
order, defaulting to `"item"`. -/
def inferUnit (l : List Char) : String :=
  if hasAnyWordToken ["lb", "lbs", "pound", "oz"] l then "lb"
  else if hasAnyWordToken ["kg", "g"] l then "kg"
  else if hasAnyWordToken ["l", "liter", "litre", "ml"] l then "l"
  else "item"

def digitsToNat (l : List Char) : Nat :=
  l.foldl (fun acc c => acc * 10 + (c.toNat - '0'.toNat)) 0

/-- `line.match(/(\d+)\s*[xX]/)`: leftmost digit run followed (after
whitespace) by `x`/`X`; the run is the captured group.  Backtracking cannot
produce other matches: a shorter digit prefix is followed by a digit, fewer
spaces are followed by a space. -/
def inferQuantityAux : List Char → Option Nat
  | [] => none
  | c :: rest =>
    if isDigitChar c then
      match ((c :: rest).dropWhile isDigitChar).dropWhile isWhitespaceChar with
      | x :: _ =>
        if x = 'x' || x = 'X' then some (digitsToNat ((c :: rest).takeWhile isDigitChar))
        else inferQuantityAux rest
      | [] => inferQuantityAux rest
    else inferQuantityAux rest

/-- `inferQuantity`: the captured multiplier, or 1. -/
def inferQuantity (l : List Char) : Nat := (inferQuantityAux l).getD 1

/-! ### `parseReceiptText` -/

/-- The `ParsedReceiptItem` shape of `src/lib/types.ts` (quantity and
confidence are JS numbers, modelled as `ℚ`). -/
structure ParsedReceiptItem where
  rawLine : String
  canonicalName : String
  displayName : String
  quantity : ℚ
  unit : String
  confidence : ℚ
deriving DecidableEq, Repr

/-- The per-line stage of `parseReceiptText` (`continue` = `none`): reject
filter, clean, length guard (`!cleaned || cleaned.length < 3`), canonicalize
and drop the `"unknown"` sentinel, then emit the item with `displayName` set
to the canonical name. -/
def parseLine (line : List Char) : Option ParsedReceiptItem :=
  if isIgnoredLine line then none
  else
    let cleaned := cleanLine line
    if cleaned.isEmpty || cleaned.length < 3 then none
    else
      let r := canonicalizeIngredient ⟨cleaned⟩
      if r.canonicalName = "unknown" then none
      else
        some { rawLine := ⟨line⟩, canonicalName := r.canonicalName,
               displayName := r.canonicalName,
               quantity := (inferQuantity line : ℚ), unit := inferUnit line,
               confidence := r.confidence }

/-- The list `parsed` before deduplication. -/
def parsedLines (rawText : String) : List ParsedReceiptItem :=
  (splitReceiptLines rawText).filterMap parseLine

/-- The `Map` key `` `${item.canonicalName}:${item.unit}` ``. -/
def itemKey (it : ParsedReceiptItem) : String :=
  it.canonicalName ++ ":" ++ it.unit

/-- Merging a later line into the map entry: sum the quantities, keep the
maximum confidence, keep everything else from the existing entry. -/
def mergeItems (existing incoming : ParsedReceiptItem) : ParsedReceiptItem :=
  { existing with
    quantity := existing.quantity + incoming.quantity,
    confidence := max existing.confidence incoming.confidence }

/-- One step of the dedup loop over a JS `Map` in insertion order: a new key
is appended, an existing key is updated in place. -/
def dedupInsert (acc : List ParsedReceiptItem) (item : ParsedReceiptItem) :
    List ParsedReceiptItem :=
  if acc.any (fun e => itemKey e = itemKey item) then
    acc.map (fun e => if itemKey e = itemKey item then mergeItems e item else e)
  else
    acc ++ [item]

/-- `parseReceiptText`: parse each line, then deduplicate by
`(canonicalName, unit)` key, returning `Array.from(deduped.values())` in
first-insertion order. -/
def parseReceiptText (rawText : String) : List ParsedReceiptItem :=
  (parsedLines rawText).foldl dedupInsert []

/-! ## shelfLife.ts: dates, `expirationDateForItem`, `daysUntil`, `urgencyScore`

`new Date(s)` / `toISOString` are ECMAScript built-ins; they are modelled for
the ISO `YYYY-MM-DD` input format (every other string is modelled as an
invalid date, i.e. `NaN`, which makes `toISOString` throw — `none` below).
Timestamps are milliseconds since the Unix epoch; the civil-calendar
conversions are the standard era-based ones. -/

def isLeapYear (y : Int) : Bool := (y % 4 = 0 ∧ y % 100 ≠ 0) ∨ y % 400 = 0

def daysInMonth (y : Int) (m : Nat) : Nat :=
  match m with
  | 1 => 31 | 2 => if isLeapYear y then 29 else 28 | 3 => 31 | 4 => 30
  | 5 => 31 | 6 => 30 | 7 => 31 | 8 => 31 | 9 => 30 | 10 => 31 | 11 => 30
  | 12 => 31 | _ => 0

/-- Days from the epoch 1970-01-01 of the civil date `y-m-d`. -/
def daysFromCivil (y : Int) (m d : Nat) : Int :=
  let y' : Int := if m ≤ 2 then y - 1 else y
  let era : Int := Int.fdiv y' 400
  let yoe : Int := y' - era * 400
  let mp : Int := if 2 < m then (m : Int) - 3 else (m : Int) + 9
  let doy : Int := Int.fdiv (153 * mp + 2) 5 + (d : Int) - 1
  let doe : Int := yoe * 365 + Int.fdiv yoe 4 - Int.fdiv yoe 100 + doy
  era * 146097 + doe - 719468

def digitVal (c : Char) : Nat := c.toNat - '0'.toNat

/-- `new Date(s).getTime()` for the modelled input format: an ISO
`YYYY-MM-DD` date (UTC midnight).  Any other input is an invalid date
(`NaN`), modelled as `none`. -/
def jsParseDate (s : String) : Option Int :=
  match s.data with
  | [y1, y2, y3, y4, h1, m1, m2, h2, d1, d2] =>
    if isDigitChar y1 && isDigitChar y2 && isDigitChar y3 && isDigitChar y4 &&
        (h1 = '-') && isDigitChar m1 && isDigitChar m2 && (h2 = '-') &&
        isDigitChar d1 && isDigitChar d2 then
      let y : Nat := ((digitVal y1 * 10 + digitVal y2) * 10 + digitVal y3) * 10 + digitVal y4
      let m : Nat := digitVal m1 * 10 + digitVal m2
      let d : Nat := digitVal d1 * 10 + digitVal d2
      if 1 ≤ m && m ≤ 12 && 1 ≤ d && d ≤ daysInMonth y m then
        some (daysFromCivil y m d * 86400000)
      else none
    else none
  | _ => none

/-- Civil date `(y, m, d)` of an epoch day number. -/
def civilFromDays (z0 : Int) : Int × Nat × Nat :=
  let z := z0 + 719468
  let era := Int.fdiv z 146097
  let doe := (z - era * 146097).toNat
  let yoe := (doe - doe / 1460 + doe / 36524 - doe / 146096) / 365
  let y : Int := (yoe : Int) + era * 400
  let doy := doe - (365 * yoe + yoe / 4 - yoe / 100)
  let mp := (5 * doy + 2) / 153
  let d := doy - (153 * mp + 2) / 5 + 1
  let m := if mp < 10 then mp + 3 else mp - 9
  (if m ≤ 2 then y + 1 else y, m, d)

def padNum (width n : Nat) : String :=
  let s := toString n
  ⟨List.replicate (width - s.length) '0'⟩ ++ s

/-- `Date.prototype.toISOString` on a valid timestamp. -/
def toISOString (t : Int) : String :=
  let day := Int.fdiv t 86400000
  let msInDay := (t - day * 86400000).toNat
  let c := civilFromDays day
  let y := c.1
  let m := c.2.1
  let d := c.2.2
  let hh := msInDay / 3600000
  let mm := msInDay % 3600000 / 60000
  let ss := msInDay % 60000 / 1000
  let ms := msInDay % 1000
  let ys := if 0 ≤ y ∧ y ≤ 9999 then padNum 4 y.toNat
    else (if y < 0 then "-" else "+") ++ padNum 6 y.natAbs
  ys ++ "-" ++ padNum 2 m ++ "-" ++ padNum 2 d ++ "T" ++ padNum 2 hh ++ ":" ++
    padNum 2 mm ++ ":" ++ padNum 2 ss ++ "." ++ padNum 3 ms ++ "Z"

/-- `expirationDateForItem({canonicalName, purchaseDate, overrideExpirationDate?})`.

`if (overrideExpirationDate)` is JS truthiness on an optional string:
`undefined` (= `none`) and `""` are falsy.  The taken branch returns
`new Date(overrideExpirationDate).toISOString()`; the other branch is
`new Date(purchaseDate)` advanced by `getShelfLifeDays(canonicalName)`
calendar days via `setDate` (in UTC this adds exactly `days * 86400000` ms,
since ECMAScript `MakeDay` is linear in the day argument).  A `NaN` date
makes `toISOString` throw, modelled by the `Option` result. -/
def expirationDateForItem (canonicalName purchaseDate : String)
    (overrideExpirationDate : Option String) : Option String :=
  if overrideExpirationDate.getD "" ≠ "" then
    (jsParseDate (overrideExpirationDate.getD "")).map toISOString
  else
    (jsParseDate purchaseDate).map
      (fun t => toISOString (t + (getShelfLifeDays canonicalName : Int) * 86400000))

/-- `Math.ceil(x / 86400000)` for an exact integer `x` of milliseconds. -/
def ceilDivDay (x : Int) : Int := Int.fdiv (x + 86400000 - 1) 86400000

/-- `daysUntil(dateIso)` with the `Date.now()` read passed in explicitly as
`now`; an invalid `dateIso` (JS `NaN` arithmetic) is outside the model and
mapped to the epoch instead. -/
def daysUntil (now : Int) (dateIso : String) : Int :=
  ceilDivDay ((jsParseDate dateIso).getD 0 - now)

/-- `urgencyScore(daysUntilExpiration) = Math.max(0, 7 - daysUntilExpiration)`. -/
def urgencyScore (daysUntilExpiration : Int) : Int :=
  max 0 (7 - daysUntilExpiration)

/-! ## part_003: `rankExpiringIngredients` -/

inductive ItemSource where
  | manual
  | receipt
deriving DecidableEq, Repr

/-- `InventoryItem` of `src/lib/types.ts`. -/
structure InventoryItem where
  id : String
  canonicalName : String
  displayName : String
  quantity : ℚ
  unit : String
  purchaseDate : String
  computedExpirationDate : String
  overrideExpirationDate : Option String := none
  source : ItemSource
  createdAt : String
  updatedAt : String
deriving DecidableEq, Repr

/-- `RankedIngredient` of `src/lib/types.ts`. -/
structure RankedIngredient where
  canonicalName : String
  displayName : String
  daysUntilExpiration : Int
  urgencyScore : Int
deriving DecidableEq, Repr

/-- `item.overrideExpirationDate ?? item.computedExpirationDate`. -/
def effectiveExpiration (it : InventoryItem) : String :=
  it.overrideExpirationDate.getD it.computedExpirationDate

/-- The JS comparator `(a, b) => b.urgencyScore - a.urgencyScore ||
a.daysUntilExpiration - b.daysUntilExpiration` (`x || y` takes `y` when `x`
is `0`). -/
def rankComparatorValue (a b : RankedIngredient) : Int :=
  if b.urgencyScore - a.urgencyScore ≠ 0 then b.urgencyScore - a.urgencyScore
  else a.daysUntilExpiration - b.daysUntilExpiration

/-- `a` may stay before `b` under the comparator (comparator value `≤ 0`). -/
def rankLe (a b : RankedIngredient) : Prop := rankComparatorValue a b ≤ 0

instance : DecidableRel rankLe :=
  fun a b => inferInstanceAs (Decidable (rankComparatorValue a b ≤ 0))

/-- `rankExpiringIngredients(pantry)`.

`daysUntil` calls `Date.now()` itself, once per mapped item; the embedding
makes those reads explicit: `clock i` is the value `Date.now()` returned
during the `map` callback for the item at index `i`.  `Array.prototype.sort`
with a consistent comparator is a stable sort, modelled by
`List.insertionSort` on `rankLe` (stable; for a consistent comparator every
stable sort agrees). -/
def rankExpiringIngredients (clock : Nat → Int) (pantry : List InventoryItem) :
    List RankedIngredient :=
  List.insertionSort rankLe
    (pantry.enum.map (fun p =>
      let remaining := daysUntil (clock p.1) (effectiveExpiration p.2)
      { canonicalName := p.2.canonicalName
        displayName := p.2.displayName
        daysUntilExpiration := remaining
        urgencyScore := urgencyScore remaining }))

/-! ## Order-theoretic facts about the ranking comparator -/

/-- The comparator orders by urgency descending, then days ascending. -/
theorem rankLe_iff (a b : RankedIngredient) :
    rankLe a b ↔ (b.urgencyScore < a.urgencyScore ∨
      (a.urgencyScore = b.urgencyScore ∧
        a.daysUntilExpiration ≤ b.daysUntilExpiration)) := by
  unfold rankLe rankComparatorValue
  by_cases h : b.urgencyScore - a.urgencyScore ≠ 0
  · rw [if_pos h]; omega
  · rw [if_neg h]; omega

instance : IsTotal RankedIngredient rankLe :=
  ⟨fun a b => by rw [rankLe_iff, rankLe_iff]; omega⟩

instance : IsTrans RankedIngredient rankLe :=
  ⟨fun a b c => by rw [rankLe_iff, rankLe_iff, rankLe_iff]; omega⟩

/-- The ranking is a permutation of the mapped pantry (sorting reorders
only). -/
theorem rank_perm (clock : Nat → Int) (pantry : List InventoryItem) :
    (rankExpiringIngredients clock pantry).Perm
      (pantry.enum.map (fun p =>
        let remaining := daysUntil (clock p.1) (effectiveExpiration p.2)
        { canonicalName := p.2.canonicalName
          displayName := p.2.displayName
          daysUntilExpiration := remaining
          urgencyScore := urgencyScore remaining })) :=
  List.perm_insertionSort rankLe _

/-! ## Facts about `normalizeToken` and the canonical names -/

theorem toLowerAscii_of_lower {c : Char} (h : isAsciiLowerAlpha c = true) :
    toLowerAscii c = c := by
  unfold isAsciiLowerAlpha at h
  rw [decide_eq_true_eq] at h
  unfold toLowerAscii
  rw [if_neg]
  intro hAZ
  exact absurd (le_trans h.1 hAZ.2) (by decide)

/-- `normalizeToken` is idempotent: its output is all `a-z`, on which it is
the identity. -/
theorem normalizeToken_idem (s : String) :
    normalizeToken (normalizeToken s) = normalizeToken s := by
  unfold normalizeToken
  apply String.ext
  show ((((s.data.map toLowerAscii).filter isAsciiLowerAlpha).map toLowerAscii).filter
      isAsciiLowerAlpha) = (s.data.map toLowerAscii).filter isAsciiLowerAlpha
  have hmap : ((s.data.map toLowerAscii).filter isAsciiLowerAlpha).map toLowerAscii
      = (s.data.map toLowerAscii).filter isAsciiLowerAlpha := by
    have h : ∀ c ∈ (s.data.map toLowerAscii).filter isAsciiLowerAlpha,
        toLowerAscii c = id c := fun c hc => toLowerAscii_of_lower (List.of_mem_filter hc)
    rw [List.map_congr_left h, List.map_id]
  rw [hmap]
  exact List.filter_eq_self.mpr (fun c hc => List.of_mem_filter hc)

set_option maxRecDepth 4000 in
/-- Every vocabulary key resolves to itself (exact-match branch; only the
canonical name is inspected, which that branch produces without any rational
arithmetic). -/
theorem canonicalizeIngredient_name_on_vocab :
    ∀ k ∈ vocabKeys, (canonicalizeIngredient k).canonicalName = k := by decide

set_option maxRecDepth 4000 in
/-- Every alias value is itself a vocabulary entry and resolves to itself. -/
theorem canonicalizeIngredient_name_on_alias_values :
    ∀ pr ∈ INGREDIENT_ALIASES, (canonicalizeIngredient pr.2).canonicalName = pr.2 := by decide

/-- `vocabDistances` with the loop's distance instead of the recurrence (the
two agree); the fold form evaluates. -/
theorem vocabDistances_eval (n : String) :
    vocabDistances n = vocabKeys.map (fun k => (k, levenshteinDistance n.data k.data)) := by
  unfold vocabDistances
  exact List.map_congr_left (fun k _ => by rw [levenshteinDistance_eq_levD])

set_option maxRecDepth 4000 in
/-- The nearest vocabulary entry to `"unknown"` is `"onion"`, at distance 4. -/
theorem firstArgmin_unknown :
    firstArgmin (vocabDistances "unknown") = some ("onion", 4) := by
  rw [vocabDistances_eval]
  decide

/-- `canonicalizeIngredient "unknown"`: the input normalizes to `"unknown"`,
is no alias and no vocabulary entry, and its best fuzzy similarity is
`1 - 4/7 < 0.55`, so the input is accepted as its own canonical name at
confidence `0.5` — the sentinel name recurs with a non-sentinel confidence. -/
theorem canonicalizeIngredient_unknown_eq :
    canonicalizeIngredient "unknown" = ⟨"unknown", 1/2⟩ := by
  have h := canonicalizeIngredient_fuzzy_eq_spec "unknown" (by decide) (by decide) (by decide)
  have hnorm : normalizeToken "unknown" = "unknown" := by decide
  rw [hnorm] at h
  rw [h]
  unfold specFuzzyResolve
  rw [firstArgmin_unknown]
  have h5 : ("onion" : String).length = 5 := by decide
  have h7 : ("unknown" : String).length = 7 := by decide
  simp only [h5, h7]
  norm_num

theorem shelf_values_ne_zero : ∀ pr ∈ SHELF_LIFE_BY_INGREDIENT, pr.2 ≠ 0 := by decide

theorem shelf_lookup_of_getD_eq_zero {n : String}
    (h : (SHELF_LIFE_BY_INGREDIENT.lookup n).getD 0 = 0) :
    SHELF_LIFE_BY_INGREDIENT.lookup n = none := by
  cases hl : SHELF_LIFE_BY_INGREDIENT.lookup n with
  | none => rfl
  | some d =>
    rw [hl] at h
    simp at h
    subst h
    exact absurd rfl (shelf_values_ne_zero _ (mem_of_lookup_eq_some hl))

/-- The fuzzy branch of `canonicalizeIngredient`, written with the
first-argmin entry made explicit. -/
theorem canonicalizeIngredient_fuzzy_branch (s : String)
    (h0 : normalizeToken s ≠ "")
    (halias : INGREDIENT_ALIASES.lookup (normalizeToken s) = none)
    (hshelf : (SHELF_LIFE_BY_INGREDIENT.lookup (normalizeToken s)).getD 0 = 0)
    {q : String × Nat} (hq : firstArgmin (vocabDistances (normalizeToken s)) = some q) :
    canonicalizeIngredient s =
      (if (55 : ℚ)/100 ≤ 1 - (q.2 : ℚ) / (max q.1.length (normalizeToken s).length)
       then ⟨q.1, round2 (1 - (q.2 : ℚ) / (max q.1.length (normalizeToken s).length))⟩
       else ⟨normalizeToken s, 1/2⟩) := by
  rw [canonicalizeIngredient_fuzzy_eq_spec s h0 halias (shelf_lookup_of_getD_eq_zero hshelf)]
  obtain ⟨k, d⟩ := q
  unfold specFuzzyResolve
  rw [hq]

/-- The first fuzzy entry has its key in the vocabulary. -/
theorem firstArgmin_key_mem_vocab {n : String} {q : String × Nat}
    (hq : firstArgmin (vocabDistances n) = some q) : q.1 ∈ vocabKeys := by
  have hmem := firstArgmin_mem hq
  unfold vocabDistances at hmem
  obtain ⟨k, hk, hkq⟩ := List.mem_map.mp hmem
  rw [← hkq]
  exact hk

/-- `canonicalizeIngredient` is idempotent on the canonical names it
produces: resolving an output name returns that name again.  Branch by
branch: the empty-input sentinel `"unknown"` resolves to itself at
confidence `0.5`; alias values and vocabulary keys are exact vocabulary
matches; a fuzzy match is a vocabulary key; and a fuzzy miss returns the
normalized input, whose resolution re-runs the identical computation. -/
theorem canonicalizeIngredient_idem (x : String) :
    (canonicalizeIngredient ((canonicalizeIngredient x).canonicalName)).canonicalName
      = (canonicalizeIngredient x).canonicalName := by
  by_cases h0 : normalizeToken x = ""
  · have hx : canonicalizeIngredient x = ⟨"unknown", 0⟩ := by
      unfold canonicalizeIngredient
      rw [if_pos h0]
    rw [hx]
    show (canonicalizeIngredient "unknown").canonicalName = "unknown"
    rw [canonicalizeIngredient_unknown_eq]
  · cases halias : INGREDIENT_ALIASES.lookup (normalizeToken x) with
    | some v =>
      have hx : (canonicalizeIngredient x).canonicalName = v := by
        unfold canonicalizeIngredient
        rw [if_neg h0, halias]
      rw [hx]
      exact canonicalizeIngredient_name_on_alias_values _ (mem_of_lookup_eq_some halias)
    | none =>
      by_cases hshelf : (SHELF_LIFE_BY_INGREDIENT.lookup (normalizeToken x)).getD 0 ≠ 0
      · have hx : (canonicalizeIngredient x).canonicalName = normalizeToken x := by
          unfold canonicalizeIngredient
          rw [if_neg h0, halias, if_pos hshelf]
        rw [hx]
        obtain ⟨d, hd⟩ : ∃ d, SHELF_LIFE_BY_INGREDIENT.lookup (normalizeToken x) = some d := by
          cases hl : SHELF_LIFE_BY_INGREDIENT.lookup (normalizeToken x) with
          | none => rw [hl] at hshelf; simp at hshelf
          | some d => exact ⟨d, rfl⟩
        have hmem : normalizeToken x ∈ vocabKeys :=
          List.mem_map_of_mem Prod.fst (mem_of_lookup_eq_some hd)
        exact canonicalizeIngredient_name_on_vocab _ hmem
      · rw [not_not] at hshelf
        obtain ⟨q, hq1, hq2⟩ := bestVocabFold_eq_firstArgmin (normalizeToken x)
        rw [canonicalizeIngredient_fuzzy_branch x h0 halias hshelf hq1]
        by_cases hsim :
            (55 : ℚ)/100 ≤ 1 - (q.2 : ℚ) / (max q.1.length (normalizeToken x).length)
        · rw [if_pos hsim]
          show (canonicalizeIngredient q.1).canonicalName = q.1
          exact canonicalizeIngredient_name_on_vocab _ (firstArgmin_key_mem_vocab hq1)
        · rw [if_neg hsim]
          show (canonicalizeIngredient (normalizeToken x)).canonicalName = normalizeToken x
          have hidem := normalizeToken_idem x
          have h0' : normalizeToken (normalizeToken x) ≠ "" := by rw [hidem]; exact h0
          have halias' : INGREDIENT_ALIASES.lookup (normalizeToken (normalizeToken x)) = none := by
            rw [hidem]; exact halias
          have hshelf' :
              (SHELF_LIFE_BY_INGREDIENT.lookup (normalizeToken (normalizeToken x))).getD 0 = 0 := by
            rw [hidem]; exact hshelf
          have hq1' :
              firstArgmin (vocabDistances (normalizeToken (normalizeToken x))) = some q := by
            rw [hidem]; exact hq1
          rw [canonicalizeIngredient_fuzzy_branch (normalizeToken x) h0' halias' hshelf' hq1']
          rw [hidem]
          rw [if_neg hsim]

/-! ## Branch facts for the error-handling claim (C4) -/

theorem alias_values_ne_empty : ∀ pr ∈ INGREDIENT_ALIASES, pr.2 ≠ "" := by decide

theorem vocab_keys_ne_empty : ∀ k ∈ vocabKeys, k ≠ "" := by decide

theorem round2_ge_of_ge {q : ℚ} (h : 55/100 ≤ q) : 55/100 ≤ round2 q := by
  unfold round2
  have h2 : (55 : ℤ) ≤ round (q * 100) := by
    rw [round_eq]
    calc (55 : ℤ) = ⌊(55 : ℚ) + 1/2⌋ := by norm_num
      _ ≤ ⌊q * 100 + 1/2⌋ := Int.floor_mono (by linarith)
  have h3 : (55 : ℚ) ≤ (round (q * 100) : ℚ) := by exact_mod_cast h2
  linarith

/-- On every input with a non-empty normalization, the resolver returns a
non-empty canonical name and a confidence of at least `1/2`. -/
theorem canonicalizeIngredient_nonempty (s : String) (h : normalizeToken s ≠ "") :
    (canonicalizeIngredient s).canonicalName ≠ ""
      ∧ 1/2 ≤ (canonicalizeIngredient s).confidence := by
  cases halias : INGREDIENT_ALIASES.lookup (normalizeToken s) with
  | some v =>
    have hx : canonicalizeIngredient s = ⟨v, 95/100⟩ := by
      unfold canonicalizeIngredient
      rw [if_neg h, halias]
    rw [hx]
    refine ⟨alias_values_ne_empty _ (mem_of_lookup_eq_some halias), by norm_num⟩
  | none =>
    by_cases hshelf : (SHELF_LIFE_BY_INGREDIENT.lookup (normalizeToken s)).getD 0 ≠ 0
    · have hx : canonicalizeIngredient s = ⟨normalizeToken s, 1⟩ := by
        unfold canonicalizeIngredient
        rw [if_neg h, halias, if_pos hshelf]
      rw [hx]
      exact ⟨h, by norm_num⟩
    · rw [not_not] at hshelf
      obtain ⟨q, hq1, _⟩ := bestVocabFold_eq_firstArgmin (normalizeToken s)
      rw [canonicalizeIngredient_fuzzy_branch s h halias hshelf hq1]
      by_cases hsim :
          (55 : ℚ)/100 ≤ 1 - (q.2 : ℚ) / (max q.1.length (normalizeToken s).length)
      · rw [if_pos hsim]
        refine ⟨vocab_keys_ne_empty _ (firstArgmin_key_mem_vocab hq1), ?_⟩
        have := round2_ge_of_ge hsim
        show (1 : ℚ)/2 ≤ round2 _
        linarith
      · rw [if_neg hsim]
        exact ⟨h, by norm_num⟩

/-! ## The deduplication invariant (C9) -/

/-- No two entries of the accumulator share a `Map` key. -/
def keyDistinct (l : List ParsedReceiptItem) : Prop :=
  l.Pairwise (fun a b => itemKey a ≠ itemKey b)

/-- What one output entry says about the lines that were merged into it:
its key's group within the parsed list is non-empty, the entry carries the
first group member's `rawLine`, `displayName`, `canonicalName` and `unit`,
the sum of the group's quantities and the maximum of its confidences. -/
def dedupGroupSpec (e : ParsedReceiptItem) (p : List ParsedReceiptItem) : Prop :=
  match p.filter (fun y => itemKey y = itemKey e) with
  | [] => False
  | g0 :: gs =>
    e.rawLine = g0.rawLine ∧ e.displayName = g0.displayName ∧
    e.canonicalName = g0.canonicalName ∧ e.unit = g0.unit ∧
    e.quantity = g0.quantity + (gs.map (fun y => y.quantity)).sum ∧
    e.confidence = gs.foldl (fun m y => max m y.confidence) g0.confidence

theorem itemKey_mergeItems (e x : ParsedReceiptItem) :
    itemKey (mergeItems e x) = itemKey e := rfl

theorem dedupInsert_step (acc p : List ParsedReceiptItem) (x : ParsedReceiptItem)
    (h1 : keyDistinct acc)
    (h2 : ∀ e ∈ acc, dedupGroupSpec e p)
    (h3 : ∀ y ∈ p, ∃ e ∈ acc, itemKey e = itemKey y) :
    keyDistinct (dedupInsert acc x)
    ∧ (∀ e ∈ dedupInsert acc x, dedupGroupSpec e (p ++ [x]))
    ∧ (∀ y ∈ p ++ [x], ∃ e ∈ dedupInsert acc x, itemKey e = itemKey y) := by
  unfold dedupInsert
  by_cases hany : (acc.any (fun e => itemKey e = itemKey x)) = true
  · rw [if_pos hany]
    have hex : ∃ e ∈ acc, itemKey e = itemKey x := by
      simpa using hany
    have hgkey : ∀ e : ParsedReceiptItem,
        itemKey (if itemKey e = itemKey x then mergeItems e x else e) = itemKey e := by
      intro e
      by_cases hk : itemKey e = itemKey x
      · rw [if_pos hk, itemKey_mergeItems]
      · rw [if_neg hk]
    refine ⟨?_, ?_, ?_⟩
    · unfold keyDistinct
      rw [List.pairwise_map]
      exact h1.imp (fun {a b} hab => by rw [hgkey a, hgkey b]; exact hab)
    · intro e' he'
      obtain ⟨e, he, rfl⟩ := List.mem_map.mp he'
      by_cases hk : itemKey e = itemKey x
      · rw [if_pos hk]
        have hspec := h2 e he
        unfold dedupGroupSpec at hspec ⊢
        simp only [itemKey_mergeItems]
        rw [List.filter_append]
        have hx1 : List.filter (fun y => itemKey y = itemKey e) [x] = [x] := by
          have hk' : itemKey x = itemKey e := hk.symm
          simp [List.filter, hk']
        rw [hx1]
        cases hg : List.filter (fun y => itemKey y = itemKey e) p with
        | nil => rw [hg] at hspec; exact absurd hspec (by simp [dedupGroupSpec])
        | cons g0 gs =>
          rw [hg] at hspec
          rw [List.cons_append]
          obtain ⟨hr, hd, hc, hu, hqty, hconf⟩ := hspec
          refine ⟨hr, hd, hc, hu, ?_, ?_⟩
          · show e.quantity + x.quantity = _
            rw [List.map_append, List.sum_append, hqty]
            simp [add_assoc]
          · show max e.confidence x.confidence = _
            rw [List.foldl_concat, hconf]
      · rw [if_neg hk]
        have hspec := h2 e he
        unfold dedupGroupSpec at hspec ⊢
        rw [List.filter_append]
        have hx0 : List.filter (fun y => itemKey y = itemKey e) [x] = [] := by
          have hk' : ¬ itemKey x = itemKey e := fun hh => hk hh.symm
          simp [List.filter, hk']
        rw [hx0, List.append_nil]
        exact hspec
    · intro y hy
      rcases List.mem_append.mp hy with hyp | hyx
      · obtain ⟨e, he, hke⟩ := h3 y hyp
        exact ⟨_, List.mem_map_of_mem _ he, by rw [hgkey e]; exact hke⟩
      · obtain ⟨e, he, hke⟩ := hex
        have hyx' : y = x := by simpa using hyx
        exact ⟨_, List.mem_map_of_mem _ he, by rw [hgkey e, hke, hyx']⟩
  · rw [if_neg hany]
    have hnone : ∀ e ∈ acc, ¬ itemKey e = itemKey x := by
      intro e he
      intro hk
      exact hany (by simp; exact ⟨e, he, hk⟩)
    refine ⟨?_, ?_, ?_⟩
    · unfold keyDistinct
      rw [List.pairwise_append]
      refine ⟨h1, by simp, ?_⟩
      intro a ha b hb
      have : b = x := by simpa using hb
      subst this
      exact hnone a ha
    · intro e' he'
      rcases List.mem_append.mp he' with he | hex'
      · have hspec := h2 e' he
        unfold dedupGroupSpec at hspec ⊢
        rw [List.filter_append]
        have hx0 : List.filter (fun y => itemKey y = itemKey e') [x] = [] := by
          have hk' : ¬ itemKey x = itemKey e' := fun hh => hnone e' he hh.symm
          simp [List.filter, hk']
        rw [hx0, List.append_nil]
        exact hspec
      · have hxspec : dedupGroupSpec x (p ++ [x]) := by
          unfold dedupGroupSpec
          rw [List.filter_append]
          have hp0 : List.filter (fun y => itemKey y = itemKey x) p = [] := by
            rw [List.filter_eq_nil]
            intro y hyp
            simp only [decide_eq_true_eq]
            intro hk
            obtain ⟨e, he, hke⟩ := h3 y hyp
            exact hnone e he (by rw [hke, hk])
          rw [hp0]
          have hx1 : List.filter (fun y => itemKey y = itemKey x) [x] = [x] := by
            simp [List.filter]
          rw [hx1]
          simp
        rw [show e' = x by simpa using hex']
        exact hxspec
    · intro y hy
      rcases List.mem_append.mp hy with hyp | hyx
      · obtain ⟨e, he, hke⟩ := h3 y hyp
        exact ⟨e, List.mem_append_left _ he, hke⟩
      · have : y = x := by simpa using hyx
        subst this
        exact ⟨y, List.mem_append_right _ (by simp), rfl⟩

/-- The dedup fold, from any well-formed accumulator. -/
theorem dedup_foldl_spec (l : List ParsedReceiptItem) :
    ∀ (acc p : List ParsedReceiptItem),
      keyDistinct acc →
      (∀ e ∈ acc, dedupGroupSpec e p) →
      (∀ y ∈ p, ∃ e ∈ acc, itemKey e = itemKey y) →
      keyDistinct (l.foldl dedupInsert acc)
      ∧ (∀ e ∈ l.foldl dedupInsert acc, dedupGroupSpec e (p ++ l))
      ∧ (∀ y ∈ p ++ l, ∃ e ∈ l.foldl dedupInsert acc, itemKey e = itemKey y) := by
  induction l with
  | nil =>
    intro acc p h1 h2 h3
    simpa using ⟨h1, h2, h3⟩
  | cons x l ih =>
    intro acc p h1 h2 h3
    rw [List.foldl_cons]
    have step := dedupInsert_step acc p x h1 h2 h3
    have := ih (dedupInsert acc x) (p ++ [x]) step.1 step.2.1 step.2.2
    rw [List.append_assoc] at this
    simpa using this

/-! ## Shelf-life bounds (C10) -/

theorem shelf_values_ge_two : ∀ pr ∈ SHELF_LIFE_BY_INGREDIENT, 2 ≤ pr.2 := by decide

theorem getShelfLifeDays_pos (n : String) : 1 ≤ getShelfLifeDays n := by
  unfold getShelfLifeDays
  cases hl : SHELF_LIFE_BY_INGREDIENT.lookup n with
  | none => simp [DEFAULT_SHELF_LIFE_DAYS]
  | some d =>
    have := shelf_values_ge_two _ (mem_of_lookup_eq_some hl)
    simpa using by omega

/-! ## Sample inventory items for the concrete ranking scenarios -/

/-- An inventory item with the given name and computed expiration, no
override. -/
def sampleItem (name expiration : String) : InventoryItem :=
  { id := name, canonicalName := name, displayName := name, quantity := 1,
    unit := "item", purchaseDate := "1970-01-01",
    computedExpirationDate := expiration, source := ItemSource.manual,
    createdAt := "1970-01-01", updatedAt := "1970-01-01" }

/-! ## Claim theorems -/

set_option maxRecDepth 8000 in
/-- C5: on the raw text `"2x Bnna $1.99\nTOTAL $1.99\nVISA ****1234"`, the
parser drops the second line (`/total/i`) and the third (`/visa/i`) and
returns a single item: `"Bnna"` resolves through the alias table to
`"banana"`, quantity 2 (from the `2x` multiplier), unit `"item"`, confidence
`0.95`. -/
theorem C5_end_to_end_receipt :
    parseReceiptText "2x Bnna $1.99\nTOTAL $1.99\nVISA ****1234"
      = [{ rawLine := "2x Bnna $1.99", canonicalName := "banana",
           displayName := "banana", quantity := 2, unit := "item",
           confidence := 95/100 }] := by
  have h : parseReceiptText "2x Bnna $1.99\nTOTAL $1.99\nVISA ****1234"
      = [{ rawLine := "2x Bnna $1.99", canonicalName := "banana",
           displayName := "banana", quantity := ((2 : ℕ) : ℚ), unit := "item",
           confidence := 95/100 }] := rfl
  rw [h]
  norm_num

set_option maxRecDepth 8000 in
/-- C1 counterexample: on `"milk 1\nmilk 2"` the parser does return a single
`("milk", "item")` entry, but its quantity is 2, not 3: `inferQuantity` only
reads `N x` multiplier tokens, so each of the two lines contributes quantity
1 (the trailing bare numerals are stripped by `cleanLine` and never parsed as
quantities). -/
theorem C1_counterexample :
    parseReceiptText "milk 1\nmilk 2"
      = [{ rawLine := "milk 1", canonicalName := "milk", displayName := "milk",
           quantity := 2, unit := "item", confidence := 1 }]
    ∧ ((2 : ℚ) = 3 → False) := by
  constructor
  · have h : parseReceiptText "milk 1\nmilk 2"
        = [{ rawLine := "milk 1", canonicalName := "milk", displayName := "milk",
             quantity := ((1 : ℕ) : ℚ) + ((1 : ℕ) : ℚ), unit := "item",
             confidence := max 1 1 }] := rfl
    rw [h]
    norm_num
  · intro h
    exact absurd h (by norm_num)

set_option maxRecDepth 8000 in
/-- C1 as amended: parsing `"milk 1\nmilk 2"` yields exactly one entry with
key `("milk", "item")` and quantity 2 (1 from each line, summed by the
aggregation), and the opposite line order `"milk 2\nmilk 1"` yields the same
single entry with the same quantity — aggregation sums quantities
commutatively across compatible lines. -/
theorem C1_amended_aggregation :
    (parseReceiptText "milk 1\nmilk 2").map
        (fun i => (i.canonicalName, i.unit, i.quantity)) = [("milk", "item", (2 : ℚ))]
    ∧ (parseReceiptText "milk 2\nmilk 1").map
        (fun i => (i.canonicalName, i.unit, i.quantity)) = [("milk", "item", (2 : ℚ))] := by
  constructor
  · have h : (parseReceiptText "milk 1\nmilk 2").map
        (fun i => (i.canonicalName, i.unit, i.quantity))
        = [("milk", "item", ((1 : ℕ) : ℚ) + ((1 : ℕ) : ℚ))] := rfl
    rw [h]
    norm_num
  · have h : (parseReceiptText "milk 2\nmilk 1").map
        (fun i => (i.canonicalName, i.unit, i.quantity))
        = [("milk", "item", ((1 : ℕ) : ℚ) + ((1 : ℕ) : ℚ))] := rfl
    rw [h]
    norm_num

/-- C3: for every raw string whose normalization is non-empty, is no alias
key and no vocabulary entry, `canonicalizeIngredient` computes the edit
distance (insert/delete/substitute each cost 1) to every vocabulary entry,
picks the minimum-distance entry with the first minimum winning ties in the
fixed vocabulary iteration order, sets
`similarity = 1 - distance / max(len input, len match)`, and returns that
entry with confidence `similarity` rounded to two decimals when
`similarity ≥ 0.55`, otherwise the normalized input itself with confidence
`0.5` — which is exactly `specFuzzyResolve`. -/
theorem C3_fuzzy_fallback (s : String)
    (h1 : normalizeToken s ≠ "")
    (h2 : INGREDIENT_ALIASES.lookup (normalizeToken s) = none)
    (h3 : SHELF_LIFE_BY_INGREDIENT.lookup (normalizeToken s) = none) :
    canonicalizeIngredient s = specFuzzyResolve (normalizeToken s) :=
  canonicalizeIngredient_fuzzy_eq_spec s h1 h2 h3

/-- Witness for C3 at the concrete input `"milc"` (not empty, no alias, no
vocabulary entry; its fuzzy resolution is `("milk", 0.75)`). -/
theorem C3_fuzzy_fallback_witness :
    normalizeToken "milc" ≠ ""
    ∧ INGREDIENT_ALIASES.lookup (normalizeToken "milc") = none
    ∧ SHELF_LIFE_BY_INGREDIENT.lookup (normalizeToken "milc") = none
    ∧ canonicalizeIngredient "milc" = specFuzzyResolve (normalizeToken "milc") :=
  ⟨by decide, by decide, by decide,
    C3_fuzzy_fallback "milc" (by decide) (by decide) (by decide)⟩

/-- C4 counterexample: the input `"milc"`-like string `"unknown"` normalizes
to the non-empty `"unknown"`, yet `canonicalizeIngredient` returns the
sentinel name `"unknown"` (with confidence `0.5`, via the low-similarity
fuzzy fallback), so "every other input returns a canonical name different
from the sentinel" is false as stated. -/
theorem C4_counterexample :
    normalizeToken "unknown" ≠ ""
    ∧ (canonicalizeIngredient "unknown").canonicalName = "unknown"
    ∧ (canonicalizeIngredient "unknown").confidence = 1/2 := by
  refine ⟨by decide, ?_, ?_⟩ <;> rw [canonicalizeIngredient_unknown_eq]

/-- C4 as amended: `canonicalizeIngredient` returns the sentinel pair
`("unknown", 0)` if and only if the input normalizes to the empty string;
every other input gets a non-empty canonical name with positive confidence
(no input is rejected with an error) — though the name `"unknown"` itself
can recur at confidence `0.5` when the input normalizes to `"unknown"`
(see the counterexample). -/
theorem C4_amended_sentinel :
    ∀ s : String,
      (canonicalizeIngredient s = ⟨"unknown", 0⟩ ↔ normalizeToken s = "")
      ∧ (normalizeToken s ≠ "" →
          (canonicalizeIngredient s).canonicalName ≠ ""
          ∧ 0 < (canonicalizeIngredient s).confidence) := by
  intro s
  constructor
  · constructor
    · intro he
      by_contra hn
      have hc := (canonicalizeIngredient_nonempty s hn).2
      rw [he] at hc
      norm_num at hc
    · intro hn
      unfold canonicalizeIngredient
      rw [if_pos hn]
  · intro hn
    have h := canonicalizeIngredient_nonempty s hn
    exact ⟨h.1, by linarith [h.2]⟩

/-- C6: with a supplied non-empty override date the result is exactly the
normalized override — `new Date(override).toISOString()` — independent of
the canonical name and the purchase date, with no shelf-life lookup
performed. -/
theorem C6_override_expiration :
    ∀ (canonicalName purchaseDate ov : String), ov ≠ "" →
      expirationDateForItem canonicalName purchaseDate (some ov)
          = (jsParseDate ov).map toISOString
      ∧ (∀ (name' purchase' : String),
          expirationDateForItem name' purchase' (some ov)
            = expirationDateForItem canonicalName purchaseDate (some ov)) := by
  intro name p ov hov
  have hbranch : ∀ (n p' : String), expirationDateForItem n p' (some ov)
      = (jsParseDate ov).map toISOString := by
    intro n p'
    unfold expirationDateForItem
    rw [if_pos (by simpa using hov)]
    simp
  exact ⟨hbranch name p, fun n' p' => by rw [hbranch, hbranch]⟩

/-- Witness for C6 at a canonical name absent from the shelf-life table. -/
theorem C6_override_expiration_witness :
    ("2030-06-15" : String) ≠ ""
    ∧ (expirationDateForItem "dragonfruit" "2024-01-01" (some "2030-06-15")
          = (jsParseDate "2030-06-15").map toISOString
       ∧ (∀ (name' purchase' : String),
          expirationDateForItem name' purchase' (some "2030-06-15")
            = expirationDateForItem "dragonfruit" "2024-01-01" (some "2030-06-15"))) :=
  ⟨by decide, C6_override_expiration "dragonfruit" "2024-01-01" "2030-06-15" (by decide)⟩

/-- C7: the ranking is sorted descending by `urgencyScore` with ties broken
ascending by `daysUntilExpiration` (for every pantry and every sequence of
clock reads), and on four items whose `daysUntilExpiration` come out as
`[-1, 0, 10, 3]` the returned order is `[-1, 0, 3, 10]`. -/
theorem C7_rank_ordering :
    (∀ (clock : Nat → Int) (pantry : List InventoryItem),
        (rankExpiringIngredients clock pantry).Pairwise
          (fun a b => b.urgencyScore < a.urgencyScore ∨
            (a.urgencyScore = b.urgencyScore ∧
              a.daysUntilExpiration ≤ b.daysUntilExpiration)))
    ∧ ([sampleItem "a" "1969-12-31", sampleItem "b" "1970-01-01",
        sampleItem "c" "1970-01-11", sampleItem "d" "1970-01-04"].map
          (fun it => daysUntil 0 (effectiveExpiration it)) = [-1, 0, 10, 3])
    ∧ (rankExpiringIngredients (fun _ => 0)
        [sampleItem "a" "1969-12-31", sampleItem "b" "1970-01-01",
         sampleItem "c" "1970-01-11", sampleItem "d" "1970-01-04"]).map
        (fun r => r.daysUntilExpiration) = [-1, 0, 3, 10] := by
  refine ⟨?_, by decide, by decide⟩
  intro clock pantry
  have hs := List.sorted_insertionSort rankLe
    (pantry.enum.map (fun p =>
      let remaining := daysUntil (clock p.1) (effectiveExpiration p.2)
      { canonicalName := p.2.canonicalName
        displayName := p.2.displayName
        daysUntilExpiration := remaining
        urgencyScore := urgencyScore remaining }))
  exact List.Pairwise.imp (fun h => (rankLe_iff _ _).mp h) hs

/-- C8: `canonicalizeIngredient` is idempotent on the canonical names it
produces: resolving the canonical name returned for any input yields that
same canonical name again. -/
theorem C8_resolve_idempotent :
    ∀ x : String,
      (canonicalizeIngredient ((canonicalizeIngredient x).canonicalName)).canonicalName
        = (canonicalizeIngredient x).canonicalName :=
  canonicalizeIngredient_idem

/-- The clock of the C2 counterexample: `Date.now()` returns 0 during the
first item's `daysUntil` call and two days later during the second's. -/
def c2Clock : Nat → Int := fun i => if i = 0 then 0 else 172800000

def c2Pantry : List InventoryItem :=
  [sampleItem "a" "1970-01-01", sampleItem "b" "1970-01-01"]

/-- C2: the code reads `Date.now()` inside `daysUntil` once per mapped item,
not once per ranking pass.  For two items with the same effective expiration
and a clock that ticks between the two reads, the two output items carry
different `daysUntilExpiration`, which no single value of `now` can
reproduce: the pass is not a function of the item list and one instant. -/
theorem C2_one_instant_per_pass_fails :
    ¬ ∃ now : Int,
        rankExpiringIngredients c2Clock c2Pantry
          = rankExpiringIngredients (fun _ => now) c2Pantry := by
  rintro ⟨now, h⟩
  have e1 : (rankExpiringIngredients c2Clock c2Pantry).map
      (fun r : RankedIngredient => r.daysUntilExpiration) = [-2, 0] := by decide
  have e2 : (rankExpiringIngredients (fun _ => now) c2Pantry).map
      (fun r : RankedIngredient => r.daysUntilExpiration) = [-2, 0] := by
    rw [← h]
    exact e1
  have hp := (rank_perm (fun _ => now) c2Pantry).map
    (fun r : RankedIngredient => r.daysUntilExpiration)
  rw [e2] at hp
  have hp' : ([-2, 0] : List Int).Perm
      [daysUntil now "1970-01-01", daysUntil now "1970-01-01"] := hp
  have hm2 : (-2 : Int) ∈ [daysUntil now "1970-01-01", daysUntil now "1970-01-01"] :=
    hp'.mem_iff.mp (by simp)
  have hm0 : (0 : Int) ∈ [daysUntil now "1970-01-01", daysUntil now "1970-01-01"] :=
    hp'.mem_iff.mp (by simp)
  rw [List.mem_cons, List.mem_singleton, or_self] at hm2 hm0
  exact absurd (hm0.trans hm2.symm) (by norm_num)

/-- C9: for every input text, the parsed output has no two items with the
same `(canonicalName, unit)` pair; each key's entry carries the first merged
line's `rawLine`, `displayName`, `canonicalName` and `unit`, the sum of the
group's quantities and the maximum of its confidences
(`dedupGroupSpec`), and every parsed line's key is represented. -/
theorem C9_dedup_unique_keys :
    ∀ rawText : String,
      (parseReceiptText rawText).Pairwise
        (fun a b => ¬ (a.canonicalName = b.canonicalName ∧ a.unit = b.unit))
      ∧ (∀ e ∈ parseReceiptText rawText, dedupGroupSpec e (parsedLines rawText))
      ∧ (∀ y ∈ parsedLines rawText,
          ∃ e ∈ parseReceiptText rawText, itemKey e = itemKey y) := by
  intro rawText
  have h := dedup_foldl_spec (parsedLines rawText) [] [] List.Pairwise.nil
    (by simp) (by simp)
  rw [List.nil_append] at h
  refine ⟨?_, h.2.1, h.2.2⟩
  exact List.Pairwise.imp
    (fun hk hpair => hk (by unfold itemKey; rw [hpair.1, hpair.2])) h.1

/-- Witness for C9's membership hypotheses at the input `"milk 1\nmilk 2"`
(the claim theorem itself has no top-level hypotheses; this instantiates the
inner bounded quantifiers at the concrete output). -/
theorem C9_dedup_unique_keys_witness :
    (parseReceiptText "milk 1\nmilk 2").Pairwise
      (fun a b => ¬ (a.canonicalName = b.canonicalName ∧ a.unit = b.unit))
    ∧ (∀ e ∈ parseReceiptText "milk 1\nmilk 2",
        dedupGroupSpec e (parsedLines "milk 1\nmilk 2"))
    ∧ (∀ y ∈ parsedLines "milk 1\nmilk 2",
        ∃ e ∈ parseReceiptText "milk 1\nmilk 2", itemKey e = itemKey y) :=
  C9_dedup_unique_keys "milk 1\nmilk 2"

/-- C10: with no override and a valid purchase date, the computed expiration
is the purchase instant advanced by `getShelfLifeDays(canonicalName)` whole
days — strictly later than the purchase date, since every shelf-life is at
least 1 day (every table entry is at least 2, the default for absent names
is 7). -/
theorem C10_expiration_after_purchase :
    ∀ (canonicalName purchaseDate : String) (t : Int),
      jsParseDate purchaseDate = some t →
      expirationDateForItem canonicalName purchaseDate none
          = some (toISOString (t + (getShelfLifeDays canonicalName : Int) * 86400000))
      ∧ t < t + (getShelfLifeDays canonicalName : Int) * 86400000
      ∧ 1 ≤ getShelfLifeDays canonicalName
      ∧ (∀ pr ∈ SHELF_LIFE_BY_INGREDIENT, 2 ≤ pr.2)
      ∧ DEFAULT_SHELF_LIFE_DAYS = 7 := by
  intro name p t hp
  have hpos := getShelfLifeDays_pos name
  refine ⟨?_, ?_, hpos, shelf_values_ge_two, rfl⟩
  · unfold expirationDateForItem
    rw [if_neg (by simp), hp]
    rfl
  · have hc : (1 : Int) ≤ (getShelfLifeDays name : Int) := by exact_mod_cast hpos
    omega

/-- Witness for C10 at `("chicken", "2024-01-01")`. -/
theorem C10_expiration_after_purchase_witness :
    jsParseDate "2024-01-01" = some 1704067200000
    ∧ (expirationDateForItem "chicken" "2024-01-01" none
          = some (toISOString (1704067200000 + (getShelfLifeDays "chicken" : Int) * 86400000))
       ∧ 1704067200000 < 1704067200000 + (getShelfLifeDays "chicken" : Int) * 86400000
       ∧ 1 ≤ getShelfLifeDays "chicken"
       ∧ (∀ pr ∈ SHELF_LIFE_BY_INGREDIENT, 2 ≤ pr.2)
       ∧ DEFAULT_SHELF_LIFE_DAYS = 7) :=
  ⟨by decide, C10_expiration_after_purchase "chicken" "2024-01-01" 1704067200000 (by decide)⟩
